import Mathlib

/-!
# Binary max-heap of `heap_magnaituvshin_z.h`

A shallow embedding of the class template `Heap<Comparable>` and a
verification of its behaviour.

Modelling conventions:

* `Comparable` is instantiated to `unsigned int`, the type of the temporaries
  `temp` and `max` of the source, so every copy through them is exact.
  Elements are natural numbers; they are only copied and compared with `<`.
* `uint` indices and counters are natural numbers reduced modulo `2^32` at each
  arithmetic step (`toUint`); `array.size()` is a 64-bit `size_t`.
* `vector::operator[]` is unchecked in C++: an index outside the vector is
  undefined behaviour and is reported as `Fault.outOfBounds`.
* Recursion and loops carry a fuel argument; `Fault.outOfFuel` is returned when
  it is exhausted.
-/

set_option autoImplicit false

namespace MaxHeap

/-! ## Machine arithmetic -/

/-- The constant `UINT_MAX` of `<climits>` for a 32-bit `unsigned int`. -/
def UINT_MAX : Nat := 4294967295

/-- Conversion of a non-negative value to `unsigned int` (reduction modulo `2^32`). -/
def toUint (n : Nat) : Nat := n % 4294967296

/-- Conversion of a non-negative value to `size_t` (reduction modulo `2^64`). -/
def toSizeT (n : Nat) : Nat := n % 18446744073709551616

/-- The `size_t` expression `array.size() - 1` for a vector of `n` elements. -/
def sizeMinusOne (n : Nat) : Nat := toSizeT (n + 18446744073709551615)

/-- The `uint` decrement `x--` (also `x - 1`) on a value `x < 2^32`. -/
def uintDec (x : Nat) : Nat := toUint (x + 4294967295)

/-- The `uint` increment `x++`. -/
def uintInc (x : Nat) : Nat := toUint (x + 1)

/-! ## Data model -/

/-- The fields of `class Heap`: the two counters and the backing vector. -/
structure Heap where
  build_count : Nat
  sort_count : Nat
  array : List Nat
deriving DecidableEq

/-- Ways in which a call can fail to return normally. -/
inductive Fault where
  /-- `assert( !is_empty() )` failed; `state` is the heap at that moment. -/
  | assertFailed (state : Heap)
  /-- An unchecked `operator[]` was applied to an index outside the vector. -/
  | outOfBounds
  /-- The fuel of the model was exhausted. -/
  | outOfFuel
deriving DecidableEq

/-- The read `v[i]` of a vector. -/
def readAt (v : List Nat) (i : Nat) : Except Fault Nat :=
  match v[i]? with
  | some x => .ok x
  | none => .error .outOfBounds

/-- The write `v[i] = x` of a vector. -/
def writeAt (v : List Nat) (i x : Nat) : Except Fault (List Nat) :=
  if i < v.length then .ok (v.set i x) else .error .outOfBounds

/-- The three statements `temp = v[i]; v[i] = v[j]; v[j] = temp;`. -/
def swapAt (v : List Nat) (i j : Nat) : Except Fault (List Nat) :=
  match readAt v i with
  | .error e => .error e
  | .ok temp =>
    match readAt v j with
    | .error e => .error e
    | .ok x =>
      match writeAt v i x with
      | .error e => .error e
      | .ok v1 => writeAt v1 j temp

/-! ## Index helpers -/

/-- Source: `getParentIndex`, `(nodeIndex-1)/2` in `uint` arithmetic. -/
def getParentIndex (nodeIndex : Nat) : Nat := uintDec nodeIndex / 2

/-- Source: `getLeftChildIndex`, `(nodeIndex*2)+1` in `uint` arithmetic. -/
def getLeftChildIndex (nodeIndex : Nat) : Nat := toUint (nodeIndex * 2 + 1)

/-- Source: `getRightChildIndex`, `(nodeIndex*2)+2` in `uint` arithmetic. -/
def getRightChildIndex (nodeIndex : Nat) : Nat := toUint (nodeIndex * 2 + 2)

/-! ## Private algorithms -/

/-- Source: `percolate_down( uint index, uint size )`, sifting in `array` and
counting in `build_count`. -/
def percolate_down : Nat → Nat → Nat → Heap → Except Fault Heap
  | 0, _, _, _ => .error .outOfFuel
  | fuel + 1, index, size, h =>
    let leftChild := getLeftChildIndex index
    let rightChild := getRightChildIndex index
    let h1 : Heap := { h with build_count := uintInc h.build_count }
    if leftChild ≥ size then .ok h1
    else
      match readAt h1.array index with
      | .error e => .error e
      | .ok vi =>
        match readAt h1.array leftChild with
        | .error e => .error e
        | .ok vl =>
          let maxIndex := if vi < vl then leftChild else index
          let second : Except Fault Nat :=
            if rightChild < size then
              match readAt h1.array maxIndex with
              | .error e => .error e
              | .ok vm =>
                match readAt h1.array rightChild with
                | .error e => .error e
                | .ok vr => .ok (if vm < vr then rightChild else maxIndex)
            else .ok maxIndex
          match second with
          | .error e => .error e
          | .ok maxIndex =>
            if maxIndex ≠ index then
              match swapAt h1.array index maxIndex with
              | .error e => .error e
              | .ok a => percolate_down fuel maxIndex size { h1 with array := a }
            else .ok h1

/-- Source: `percolate_down( uint index, uint size, vector & result )`, sifting
in `result` and counting in `sort_count`. -/
def percolate_down_result : Nat → Nat → Nat → Heap → List Nat →
    Except Fault (Heap × List Nat)
  | 0, _, _, _, _ => .error .outOfFuel
  | fuel + 1, index, size, h, result =>
    let leftChild := getLeftChildIndex index
    let rightChild := getRightChildIndex index
    let h1 : Heap := { h with sort_count := uintInc h.sort_count }
    if leftChild ≥ size then .ok (h1, result)
    else
      match readAt result index with
      | .error e => .error e
      | .ok vi =>
        match readAt result leftChild with
        | .error e => .error e
        | .ok vl =>
          let maxIndex := if vi < vl then leftChild else index
          let second : Except Fault Nat :=
            if rightChild < size then
              match readAt result maxIndex with
              | .error e => .error e
              | .ok vm =>
                match readAt result rightChild with
                | .error e => .error e
                | .ok vr => .ok (if vm < vr then rightChild else maxIndex)
            else .ok maxIndex
          match second with
          | .error e => .error e
          | .ok maxIndex =>
            if maxIndex ≠ index then
              match swapAt result index maxIndex with
              | .error e => .error e
              | .ok r => percolate_down_result fuel maxIndex size h1 r
            else .ok (h1, result)

/-- Source: `bubble_up( uint index )`. -/
def bubble_up : Nat → Nat → Heap → Except Fault Heap
  | 0, _, _ => .error .outOfFuel
  | fuel + 1, index, h =>
    let parentIndex := getParentIndex index
    if index = 0 then .ok h
    else
      match readAt h.array parentIndex with
      | .error e => .error e
      | .ok vp =>
        match readAt h.array index with
        | .error e => .error e
        | .ok vi =>
          if vp < vi then
            match swapAt h.array parentIndex index with
            | .error e => .error e
            | .ok a => bubble_up fuel parentIndex { h with array := a }
          else .ok h

/-- The loop of `build_heap`: `for( ; i != UINT_MAX; i--) percolate_down(i,size);`.
The first argument bounds the number of loop tests, the second is the fuel of
each `percolate_down`. -/
def build_heap_loop : Nat → Nat → Nat → Nat → Heap → Except Fault Heap
  | 0, _, _, _, _ => .error .outOfFuel
  | fuel + 1, pfuel, i, size, h =>
    if i ≠ UINT_MAX then
      match percolate_down pfuel i size h with
      | .error e => .error e
      | .ok h1 => build_heap_loop fuel pfuel (uintDec i) size h1
    else .ok h

/-- Source: `build_heap( )`. -/
def build_heap (fuel : Nat) (h : Heap) : Except Fault Heap :=
  let size := toUint h.array.length
  build_heap_loop fuel fuel (uintDec (size / 2)) size h

/-! ## Public interface -/

/-- Source: the constructor `Heap( )`. -/
def Heap.init : Heap := { build_count := 0, sort_count := 0, array := [] }

/-- Source: the constructor `Heap( const vector<Comparable> & items )`. -/
def Heap.ofItems (fuel : Nat) (items : List Nat) : Except Fault Heap :=
  build_heap fuel { build_count := 0, sort_count := 0, array := items }

/-- Source: `is_empty( )`. -/
def is_empty (h : Heap) : Bool := h.array.isEmpty

/-- Source: `heap_sort_count()`. -/
def heap_sort_count (h : Heap) : Nat := h.sort_count

/-- Source: `build_heap_count()`. -/
def build_heap_count (h : Heap) : Nat := h.build_count

/-- Source: `insert( const Comparable & value )`. -/
def insert (fuel : Nat) (value : Nat) (h : Heap) : Except Fault Heap :=
  let nodeIndex := toUint (sizeMinusOne h.array.length)
  let h1 : Heap := { h with array := h.array ++ [value] }
  if h1.array.length ≠ 0 then bubble_up fuel nodeIndex h1 else .ok h1

/-- Source: `delete_max( )`; the value returned and the heap left behind. -/
def delete_max (fuel : Nat) (h : Heap) : Except Fault (Nat × Heap) :=
  if is_empty h then .error (.assertFailed h)
  else
    let index := 0
    match readAt h.array 0 with
    | .error e => .error e
    | .ok max =>
      match readAt h.array (sizeMinusOne h.array.length) with
      | .error e => .error e
      | .ok last =>
        match writeAt h.array 0 last with
        | .error e => .error e
        | .ok a =>
          let h1 : Heap := { h with array := a.dropLast }
          if h1.array.length > 0 then
            match percolate_down fuel index (toUint h1.array.length) h1 with
            | .error e => .error e
            | .ok h2 => .ok (max, h2)
          else .ok (max, h1)

/-- The loop of `heap_sort`: `for( ; i != 0; i--) { swap; imaginarySize--;
percolate_down(0, imaginarySize, result); }`. -/
def heap_sort_loop : Nat → Nat → Nat → Nat → Heap → List Nat →
    Except Fault (Heap × List Nat)
  | 0, _, _, _, _, _ => .error .outOfFuel
  | fuel + 1, pfuel, i, imaginarySize, h, result =>
    if i ≠ 0 then
      match swapAt result 0 imaginarySize with
      | .error e => .error e
      | .ok r1 =>
        let imaginarySize1 := uintDec imaginarySize
        match percolate_down_result pfuel 0 imaginarySize1 h r1 with
        | .error e => .error e
        | .ok (h1, r2) => heap_sort_loop fuel pfuel (uintDec i) imaginarySize1 h1 r2
    else .ok (h, result)

/-- Source: `heap_sort( vector< Comparable > & result )`; the heap afterwards
and the vector written to `result`. -/
def heap_sort (fuel : Nat) (h : Heap) : Except Fault (Heap × List Nat) :=
  let result := h.array
  let imaginarySize := toUint (sizeMinusOne result.length)
  heap_sort_loop fuel fuel (toUint (sizeMinusOne result.length)) imaginarySize h result

/-- The caller's loop `for (k times) out.push_back(heap.delete_max());`: the
values returned, in call order, and the heap left behind. -/
def delete_max_repeat : Nat → Nat → Heap → Except Fault (List Nat × Heap)
  | 0, _, h => .ok ([], h)
  | k + 1, fuel, h =>
    match delete_max fuel h with
    | .error e => .error e
    | .ok (m, h1) =>
      match delete_max_repeat k fuel h1 with
      | .error e => .error e
      | .ok (ms, h2) => .ok (m :: ms, h2)

/-! ## Specification predicates -/

/-- The max-heap property over the first `size` cells of `a`, restricted to the
nodes `j ≥ lo`: each such node is `≥` each of its children below `size`. -/
def heapFrom (lo size : Nat) (a : List Nat) : Prop :=
  ∀ j, lo ≤ j → j < size →
    (2 * j + 1 < size → a.getD (2 * j + 1) 0 ≤ a.getD j 0) ∧
    (2 * j + 2 < size → a.getD (2 * j + 2) 0 ≤ a.getD j 0)

/-- The max-heap property of the spec: `array[i] >= array[2i+1]` whenever
`2i+1 < size` and `array[i] >= array[2i+2]` whenever `2i+2 < size`. -/
def isMaxHeap (a : List Nat) : Prop :=
  ∀ i, i < a.length →
    (2 * i + 1 < a.length → a.getD (2 * i + 1) 0 ≤ a.getD i 0) ∧
    (2 * i + 2 < a.length → a.getD (2 * i + 2) 0 ≤ a.getD i 0)

instance (a : List Nat) : Decidable (isMaxHeap a) := by
  unfold isMaxHeap; infer_instance

/-- Non-decreasing order: `out[i] <= out[i+1]` for every adjacent pair. -/
def nonDecreasing (out : List Nat) : Prop :=
  ∀ i, i < out.length → i + 1 < out.length → out.getD i 0 ≤ out.getD (i + 1) 0

instance (out : List Nat) : Decidable (nonDecreasing out) := by
  unfold nonDecreasing; infer_instance

/-! ## The effect of a sift-down on a vector -/

/-- The vector `v` with the cells `i` and `j` exchanged. -/
def swapL (v : List Nat) (i j : Nat) : List Nat :=
  (v.set i (v.getD j 0)).set j (v.getD i 0)

/-- The value of `maxIndex` after the two comparisons of `percolate_down` at a
node `index` whose left child lies below `size`. -/
def maxChild (index size : Nat) (a : List Nat) : Nat :=
  let m1 := if a.getD index 0 < a.getD (2 * index + 1) 0 then 2 * index + 1 else index
  if 2 * index + 2 < size ∧ a.getD m1 0 < a.getD (2 * index + 2) 0 then 2 * index + 2 else m1

/-- The vector left by a call of either overload of `percolate_down` at `index`
with boundary `size`, paired with the number of invocations made, when no index
wraps around and no access leaves the vector. -/
def sift : Nat → Nat → Nat → List Nat → List Nat × Nat
  | 0, _, _, a => (a, 0)
  | fuel + 1, index, size, a =>
    if size ≤ 2 * index + 1 then (a, 1)
    else
      if maxChild index size a ≠ index then
        ((sift fuel (maxChild index size a) size (swapL a index (maxChild index size a))).1,
          (sift fuel (maxChild index size a) size (swapL a index (maxChild index size a))).2 + 1)
      else (a, 1)

/-- The heap property at every node `j ≥ lo` other than `index`, together with
the ordering between the parent of `index` and the children of `index`. -/
def heapExcept (lo index size : Nat) (a : List Nat) : Prop :=
  (∀ j, lo ≤ j → j < size → j ≠ index →
    (2 * j + 1 < size → a.getD (2 * j + 1) 0 ≤ a.getD j 0) ∧
    (2 * j + 2 < size → a.getD (2 * j + 2) 0 ≤ a.getD j 0)) ∧
  (∀ p, lo ≤ p → (index = 2 * p + 1 ∨ index = 2 * p + 2) →
    (2 * index + 1 < size → a.getD (2 * index + 1) 0 ≤ a.getD p 0) ∧
    (2 * index + 2 < size → a.getD (2 * index + 2) 0 ≤ a.getD p 0))

/-- The vector left by the loop of `build_heap` when `k` iterations remain (the
loop index is `k - 1`), paired with the number of `percolate_down` invocations. -/
def buildPure (pfuel size : Nat) : Nat → List Nat → List Nat × Nat
  | 0, a => (a, 0)
  | k + 1, a =>
    ((buildPure pfuel size k (sift pfuel k size a).1).1,
      (sift pfuel k size a).2 + (buildPure pfuel size k (sift pfuel k size a).1).2)

/-- The vector left by the loop of `heap_sort` when the loop index and
`imaginarySize` both equal `k`, paired with the number of `percolate_down`
invocations. -/
def sortPure (pfuel : Nat) : Nat → List Nat → List Nat × Nat
  | 0, r => (r, 0)
  | k + 1, r =>
    ((sortPure pfuel k (sift pfuel 0 k (swapL r 0 (k + 1))).1).1,
      (sift pfuel 0 k (swapL r 0 (k + 1))).2 +
        (sortPure pfuel k (sift pfuel 0 k (swapL r 0 (k + 1))).1).2)

/-- The vector after `array[0] = array[array.size()-1]; array.pop_back();`. -/
def popRoot (a : List Nat) : List Nat :=
  (a.set 0 (a.getD (a.length - 1) 0)).dropLast

/-- The heap left by a successful `delete_max`. -/
def afterDelete (fuel : Nat) (h : Heap) : Heap :=
  if 0 < (popRoot h.array).length then
    { build_count :=
        uintInc^[(sift fuel 0 (popRoot h.array).length (popRoot h.array)).2] h.build_count,
      sort_count := h.sort_count,
      array := (sift fuel 0 (popRoot h.array).length (popRoot h.array)).1 }
  else { h with array := popRoot h.array }

/-- The vector left by `bubble_up` at `index` when no index wraps around and no
access leaves the vector. -/
def bubble : Nat → Nat → List Nat → List Nat
  | 0, _, a => a
  | fuel + 1, index, a =>
    if index = 0 then a
    else
      if a.getD ((index - 1) / 2) 0 < a.getD index 0 then
        bubble fuel ((index - 1) / 2) (swapL a ((index - 1) / 2) index)
      else a

/-! ## Machine arithmetic lemmas -/

theorem toUint_of_lt {n : Nat} (h : n < 4294967296) : toUint n = n := by
  unfold toUint; omega

theorem uintDec_of_pos {x : Nat} (h0 : 0 < x) (h : x < 4294967296) : uintDec x = x - 1 := by
  unfold uintDec toUint; omega

theorem uintDec_zero : uintDec 0 = UINT_MAX := by
  rfl

theorem sizeMinusOne_of_pos {n : Nat} (h0 : 0 < n) (h : n < 4294967296) :
    sizeMinusOne n = n - 1 := by
  unfold sizeMinusOne toSizeT; omega

theorem getLeftChildIndex_of_lt {i : Nat} (h : i < 2147483648) :
    getLeftChildIndex i = 2 * i + 1 := by
  unfold getLeftChildIndex toUint; omega

theorem getRightChildIndex_of_lt {i : Nat} (h : i < 2147483647) :
    getRightChildIndex i = 2 * i + 2 := by
  unfold getRightChildIndex toUint; omega

/-! ## Vector access lemmas -/

theorem readAt_of_lt {v : List Nat} {i : Nat} (h : i < v.length) :
    readAt v i = .ok (v.getD i 0) := by
  unfold readAt
  rw [List.getD_eq_getElem?_getD, List.getElem?_eq_getElem h]
  rfl

theorem readAt_of_ge {v : List Nat} {i : Nat} (h : v.length ≤ i) :
    readAt v i = .error .outOfBounds := by
  unfold readAt
  rw [List.getElem?_eq_none h]

theorem writeAt_of_lt {v : List Nat} {i : Nat} (x : Nat) (h : i < v.length) :
    writeAt v i x = .ok (v.set i x) := by
  unfold writeAt
  rw [if_pos h]

theorem swapAt_of_lt {v : List Nat} {i j : Nat} (hi : i < v.length) (hj : j < v.length) :
    swapAt v i j = .ok (swapL v i j) := by
  unfold swapAt swapL
  rw [readAt_of_lt hi, readAt_of_lt hj]
  simp only []
  rw [writeAt_of_lt _ hi]
  simp only []
  rw [writeAt_of_lt _ (by rw [List.length_set]; exact hj)]

theorem length_swapL (v : List Nat) (i j : Nat) : (swapL v i j).length = v.length := by
  unfold swapL; simp

theorem getD_set_nat (v : List Nat) (i x k : Nat) :
    (v.set i x).getD k 0 = if k = i ∧ i < v.length then x else v.getD k 0 := by
  simp only [List.getD_eq_getElem?_getD, List.getElem?_set]
  by_cases h1 : i = k
  · subst h1
    by_cases h2 : i < v.length
    · simp [h2]
    · simp [h2, List.getElem?_eq_none (Nat.le_of_not_lt h2)]
  · have h3 : ¬ k = i := fun h => h1 h.symm
    simp [h1, h3]

theorem getD_swapL {v : List Nat} {i j : Nat} (hi : i < v.length) (hj : j < v.length)
    (k : Nat) :
    (swapL v i j).getD k 0 =
      if k = j then v.getD i 0 else if k = i then v.getD j 0 else v.getD k 0 := by
  unfold swapL
  rw [getD_set_nat, getD_set_nat, List.length_set]
  by_cases h1 : k = j
  · simp [h1, hj]
  · by_cases h2 : k = i
    · subst h2
      simp [h1, hi]
    · simp [h1, h2]

theorem cons_set_perm (t : List Nat) (k x : Nat) (hk : k < t.length) :
    (t.getD k 0 :: t.set k x).Perm (x :: t) := by
  induction t generalizing k with
  | nil => simp at hk
  | cons y t ih =>
    cases k with
    | zero => simpa using List.Perm.swap x y t
    | succ k =>
      have hk2 : k < t.length := by simpa using hk
      have h1 := ih k hk2
      simp only [List.getD_cons_succ, List.set_cons_succ]
      exact ((List.Perm.swap y (t.getD k 0) (t.set k x)).trans (h1.cons y)).trans
        (List.Perm.swap x y t)

theorem swapL_perm_lt (v : List Nat) (i j : Nat) (hij : i < j) (hj : j < v.length) :
    (swapL v i j).Perm v := by
  induction v generalizing i j with
  | nil => simp at hj
  | cons y t ih =>
    cases j with
    | zero => omega
    | succ j =>
      have hj2 : j < t.length := by simpa using hj
      cases i with
      | zero =>
        unfold swapL
        simp only [List.getD_cons_succ, List.set_cons_zero, List.set_cons_succ,
          List.getD_cons_zero]
        exact cons_set_perm t j y hj2
      | succ i =>
        have h1 := ih i j (by omega) hj2
        unfold swapL at h1 ⊢
        simp only [List.getD_cons_succ, List.set_cons_succ]
        exact h1.cons y

theorem swapL_perm {v : List Nat} {i j : Nat} (hij : i < j) (hj : j < v.length) :
    (swapL v i j).Perm v :=
  swapL_perm_lt v i j hij hj

/-! ## Properties of `sift` -/

theorem maxChild_cases (index size : Nat) (a : List Nat) :
    maxChild index size a = index ∨ maxChild index size a = 2 * index + 1 ∨
      (maxChild index size a = 2 * index + 2 ∧ 2 * index + 2 < size) := by
  unfold maxChild
  simp only []
  split_ifs with h1 h2 <;> simp_all

theorem maxChild_ge (index size : Nat) (a : List Nat) :
    a.getD index 0 ≤ a.getD (maxChild index size a) 0 ∧
    a.getD (2 * index + 1) 0 ≤ a.getD (maxChild index size a) 0 ∧
    (2 * index + 2 < size → a.getD (2 * index + 2) 0 ≤ a.getD (maxChild index size a) 0) := by
  unfold maxChild
  simp only []
  split_ifs with h1 h2 h3 <;> refine ⟨?_, ?_, ?_⟩ <;> omega

theorem maxChild_lt_of_ne (index size : Nat) (a : List Nat)
    (h : maxChild index size a ≠ index) :
    a.getD index 0 < a.getD (maxChild index size a) 0 := by
  unfold maxChild at h ⊢
  simp only [] at h ⊢
  split_ifs at h ⊢ with h1 h2 h3 <;> omega

theorem sift_length (fuel index size : Nat) (a : List Nat) :
    (sift fuel index size a).1.length = a.length := by
  induction fuel generalizing index a with
  | zero => rfl
  | succ fuel ih =>
    unfold sift
    split_ifs with h1 h2
    · rfl
    · simp only [ih, length_swapL]
    · rfl

theorem sift_perm (fuel index size : Nat) (a : List Nat) (hsz : size ≤ a.length) :
    (sift fuel index size a).1.Perm a := by
  induction fuel generalizing index a with
  | zero => exact List.Perm.refl _
  | succ fuel ih =>
    unfold sift
    split_ifs with h1 h2
    · exact List.Perm.refl _
    · have hc := maxChild_cases index size a
      have hm : index < maxChild index size a ∧ maxChild index size a < size := by omega
      exact (ih _ _ (by rw [length_swapL]; exact hsz)).trans
        (swapL_perm hm.1 (by omega))
    · exact List.Perm.refl _

theorem sift_frame (fuel index size : Nat) (a : List Nat) (hsz : size ≤ a.length)
    (k : Nat) (hk : k < index ∨ size ≤ k) :
    (sift fuel index size a).1.getD k 0 = a.getD k 0 := by
  induction fuel generalizing index a with
  | zero => rfl
  | succ fuel ih =>
    unfold sift
    split_ifs with h1 h2
    · rfl
    · have hc := maxChild_cases index size a
      have hm : index < maxChild index size a ∧ maxChild index size a < size := by omega
      simp only []
      rw [ih _ _ (by rw [length_swapL]; exact hsz) (by omega),
        getD_swapL (by omega) (by omega)]
      rw [if_neg (by omega), if_neg (by omega)]
    · rfl

theorem heapExcept_swapL {lo index size m : Nat} {a : List Nat} (hsz : size ≤ a.length)
    (H : heapExcept lo index size a) (hm : m = 2 * index + 1 ∨ m = 2 * index + 2)
    (hms : m < size) (hlo : lo ≤ index)
    (hl : a.getD (2 * index + 1) 0 ≤ a.getD m 0)
    (hr : 2 * index + 2 < size → a.getD (2 * index + 2) 0 ≤ a.getD m 0)
    (hlt : a.getD index 0 < a.getD m 0) :
    heapExcept lo m size (swapL a index m) := by
  have hi : index < a.length := by omega
  have hmm : m < a.length := by omega
  constructor
  · intro j hj1 hj2 hjm
    rw [getD_swapL hi hmm, getD_swapL hi hmm, getD_swapL hi hmm]
    by_cases hji : j = index
    · subst hji
      rcases hm with rfl | rfl
      · constructor <;> intro hc <;> split_ifs <;> omega
      · constructor <;> intro hc <;> split_ifs <;> omega
    · have h1 := H.1 j hj1 hj2 hji
      have h2 := H.2 j hj1
      rcases hm with rfl | rfl
      · constructor
        · intro hc
          split_ifs <;> omega
        · intro hc
          split_ifs <;> omega
      · constructor
        · intro hc
          split_ifs <;> omega
        · intro hc
          split_ifs <;> omega
  · intro p hp hpm
    have hpi : p = index := by omega
    subst hpi
    have h1 := H.1 m (by omega) hms (by omega)
    rw [getD_swapL hi hmm, getD_swapL hi hmm, getD_swapL hi hmm]
    constructor <;> intro hc <;> split_ifs <;> omega

theorem sift_heap (fuel lo index size : Nat) (a : List Nat) (hsz : size ≤ a.length)
    (hfuel : size - index < fuel) (hlo : lo ≤ index) (H : heapExcept lo index size a) :
    heapFrom lo size (sift fuel index size a).1 := by
  induction fuel generalizing index a with
  | zero => omega
  | succ fuel ih =>
    unfold sift
    split_ifs with h1 h2
    · intro j hj1 hj2
      by_cases hji : j = index
      · subst hji
        constructor <;> intro hc <;> omega
      · exact H.1 j hj1 hj2 hji
    · have hc := maxChild_cases index size a
      have hge := maxChild_ge index size a
      have hlt := maxChild_lt_of_ne index size a h2
      have hm : index < maxChild index size a ∧ maxChild index size a < size := by omega
      exact ih _ _ (by rw [length_swapL]; exact hsz) (by omega) (by omega)
        (heapExcept_swapL hsz H (by omega) hm.2 hlo hge.2.1 hge.2.2 hlt)
    · have hge := maxChild_ge index size a
      have h3 : maxChild index size a = index := by
        by_contra hne
        exact h2 hne
      rw [h3] at hge
      intro j hj1 hj2
      by_cases hji : j = index
      · subst hji
        exact ⟨fun _ => hge.2.1, hge.2.2⟩
      · exact H.1 j hj1 hj2 hji

theorem sift_count_pos (fuel index size : Nat) (a : List Nat) (hfuel : 0 < fuel) :
    1 ≤ (sift fuel index size a).2 := by
  cases fuel with
  | zero => omega
  | succ fuel =>
    unfold sift
    split_ifs <;> simp

/-! ## The two overloads of `percolate_down` compute `sift` -/

theorem uintInc_iterate_one (c : Nat) : uintInc^[1] c = uintInc c := rfl

theorem percolate_down_eq (fuel index size : Nat) (h : Heap)
    (hsz : size ≤ h.array.length) (hidx : index < 2147483648) (hs : size ≤ 2147483648)
    (hfuel : size - index < fuel) :
    percolate_down fuel index size h =
      .ok { build_count := uintInc^[(sift fuel index size h.array).2] h.build_count,
            sort_count := h.sort_count,
            array := (sift fuel index size h.array).1 } := by
  induction fuel generalizing index h with
  | zero => omega
  | succ fuel ih =>
    unfold percolate_down sift
    simp only [getLeftChildIndex_of_lt hidx]
    by_cases h1 : size ≤ 2 * index + 1
    · rw [if_pos h1, if_pos h1]
      rfl
    · have hr : getRightChildIndex index = 2 * index + 2 :=
        getRightChildIndex_of_lt (by omega)
      have hc := maxChild_cases index size h.array
      rw [if_neg (by omega), if_neg h1, readAt_of_lt (by omega), readAt_of_lt (by omega), hr]
      simp only []
      have hsecond : (if 2 * index + 2 < size then
            match readAt h.array (if h.array.getD index 0 < h.array.getD (2 * index + 1) 0
                then 2 * index + 1 else index) with
            | .error e => .error e
            | .ok vm =>
              match readAt h.array (2 * index + 2) with
              | .error e => .error e
              | .ok vr => .ok (if vm < vr then 2 * index + 2
                  else (if h.array.getD index 0 < h.array.getD (2 * index + 1) 0
                    then 2 * index + 1 else index))
          else (Except.ok (if h.array.getD index 0 < h.array.getD (2 * index + 1) 0
                then 2 * index + 1 else index) : Except Fault Nat)) =
          .ok (maxChild index size h.array) := by
        unfold maxChild
        by_cases h3 : 2 * index + 2 < size
        · rw [if_pos h3, readAt_of_lt (by split_ifs <;> omega), readAt_of_lt (by omega)]
          simp only [h3, true_and]
        · rw [if_neg h3]
          simp only [h3, false_and, if_false]
      rw [hsecond]
      simp only []
      by_cases h2 : maxChild index size h.array = index
      · rw [if_neg (by simpa using h2), if_neg (by simpa using h2)]
        rfl
      · have hm : index < maxChild index size h.array ∧ maxChild index size h.array < size := by
          omega
        rw [if_pos h2, if_pos h2, swapAt_of_lt (by omega) (by omega)]
        simp only []
        rw [ih _ _ (by simp only [length_swapL]; exact hsz) (by omega) (by omega)]
        simp only [Function.iterate_succ_apply]

theorem percolate_down_result_eq (fuel index size : Nat) (h : Heap) (result : List Nat)
    (hsz : size ≤ result.length) (hidx : index < 2147483648) (hs : size ≤ 2147483648)
    (hfuel : size - index < fuel) :
    percolate_down_result fuel index size h result =
      .ok ({ build_count := h.build_count,
             sort_count := uintInc^[(sift fuel index size result).2] h.sort_count,
             array := h.array }, (sift fuel index size result).1) := by
  induction fuel generalizing index h result with
  | zero => omega
  | succ fuel ih =>
    unfold percolate_down_result sift
    simp only [getLeftChildIndex_of_lt hidx]
    by_cases h1 : size ≤ 2 * index + 1
    · rw [if_pos h1, if_pos h1]
      rfl
    · have hr : getRightChildIndex index = 2 * index + 2 :=
        getRightChildIndex_of_lt (by omega)
      have hc := maxChild_cases index size result
      rw [if_neg (by omega), if_neg h1, readAt_of_lt (by omega), readAt_of_lt (by omega), hr]
      simp only []
      have hsecond : (if 2 * index + 2 < size then
            match readAt result (if result.getD index 0 < result.getD (2 * index + 1) 0
                then 2 * index + 1 else index) with
            | .error e => .error e
            | .ok vm =>
              match readAt result (2 * index + 2) with
              | .error e => .error e
              | .ok vr => .ok (if vm < vr then 2 * index + 2
                  else (if result.getD index 0 < result.getD (2 * index + 1) 0
                    then 2 * index + 1 else index))
          else (Except.ok (if result.getD index 0 < result.getD (2 * index + 1) 0
                then 2 * index + 1 else index) : Except Fault Nat)) =
          .ok (maxChild index size result) := by
        unfold maxChild
        by_cases h3 : 2 * index + 2 < size
        · rw [if_pos h3, readAt_of_lt (by split_ifs <;> omega), readAt_of_lt (by omega)]
          simp only [h3, true_and]
        · rw [if_neg h3]
          simp only [h3, false_and, if_false]
      rw [hsecond]
      simp only []
      by_cases h2 : maxChild index size result = index
      · rw [if_neg (by simpa using h2), if_neg (by simpa using h2)]
        rfl
      · have hm : index < maxChild index size result ∧ maxChild index size result < size := by
          omega
        rw [if_pos h2, if_pos h2, swapAt_of_lt (by omega) (by omega)]
        simp only []
        rw [ih _ _ _ (by simp only [length_swapL]; exact hsz) (by omega) (by omega)]
        simp only [Function.iterate_succ_apply]

/-! ## The loop of `build_heap` -/

theorem buildPure_length (pfuel size k : Nat) (a : List Nat) :
    (buildPure pfuel size k a).1.length = a.length := by
  induction k generalizing a with
  | zero => rfl
  | succ k ih =>
    unfold buildPure
    simp only [ih, sift_length]

theorem buildPure_perm (pfuel size k : Nat) (a : List Nat) (hsz : size ≤ a.length) :
    (buildPure pfuel size k a).1.Perm a := by
  induction k generalizing a with
  | zero => exact List.Perm.refl _
  | succ k ih =>
    unfold buildPure
    exact (ih _ (by rw [sift_length]; exact hsz)).trans (sift_perm _ _ _ _ hsz)

theorem heapExcept_of_heapFrom {k size : Nat} {a : List Nat} (H : heapFrom (k + 1) size a) :
    heapExcept k k size a := by
  constructor
  · intro j hj1 hj2 hj3
    exact H j (by omega) hj2
  · intro p hp hpk
    omega

theorem buildPure_heap (pfuel size k : Nat) (a : List Nat) (hsz : size ≤ a.length)
    (hfuel : size < pfuel) (H : heapFrom k size a) :
    heapFrom 0 size (buildPure pfuel size k a).1 := by
  induction k generalizing a with
  | zero => exact H
  | succ k ih =>
    unfold buildPure
    exact ih _ (by rw [sift_length]; exact hsz)
      (sift_heap pfuel k k size a hsz (by omega) (Nat.le_refl k) (heapExcept_of_heapFrom H))

theorem build_heap_loop_eq (pfuel size k fuel : Nat) (h : Heap)
    (hsz : size ≤ h.array.length) (hs : size ≤ 2147483648) (hk : k ≤ 2147483648)
    (hpfuel : size < pfuel) (hfuel : k < fuel) :
    build_heap_loop fuel pfuel (uintDec k) size h =
      .ok { build_count := uintInc^[(buildPure pfuel size k h.array).2] h.build_count,
            sort_count := h.sort_count,
            array := (buildPure pfuel size k h.array).1 } := by
  induction k generalizing fuel h with
  | zero =>
    cases fuel with
    | zero => omega
    | succ fuel =>
      unfold build_heap_loop buildPure
      rw [uintDec_zero, if_neg (by simp)]
      rfl
  | succ k ih =>
    cases fuel with
    | zero => omega
    | succ fuel =>
      unfold build_heap_loop buildPure
      rw [uintDec_of_pos (by omega) (by omega)]
      have hne : k + 1 - 1 ≠ UINT_MAX := by unfold UINT_MAX; omega
      rw [if_pos hne]
      simp only [Nat.add_sub_cancel]
      rw [percolate_down_eq pfuel k size h hsz (by omega) hs (by omega)]
      simp only []
      rw [ih fuel _ (by simp only [sift_length]; exact hsz) (by omega) (by omega)]
      simp only [Nat.add_comm (sift pfuel k size h.array).2, Function.iterate_add_apply]

/-! ## The loop of `heap_sort` -/

theorem sortPure_length (pfuel k : Nat) (r : List Nat) :
    (sortPure pfuel k r).1.length = r.length := by
  induction k generalizing r with
  | zero => rfl
  | succ k ih =>
    unfold sortPure
    simp only [ih, sift_length, length_swapL]

theorem sortPure_perm (pfuel k : Nat) (r : List Nat) (hk : k < r.length) :
    (sortPure pfuel k r).1.Perm r := by
  induction k generalizing r with
  | zero => exact List.Perm.refl _
  | succ k ih =>
    unfold sortPure
    have h1 : (swapL r 0 (k + 1)).Perm r := swapL_perm (by omega) hk
    have h2 : (sift pfuel 0 k (swapL r 0 (k + 1))).1.Perm (swapL r 0 (k + 1)) :=
      sift_perm _ _ _ _ (by rw [length_swapL]; omega)
    exact ((ih _ (by rw [sift_length, length_swapL]; omega)).trans h2).trans h1

theorem heap_sort_loop_eq (pfuel k fuel : Nat) (h : Heap) (r : List Nat)
    (hk : k < r.length) (hlen : r.length ≤ 2147483648) (hpfuel : r.length ≤ pfuel)
    (hfuel : k < fuel) :
    heap_sort_loop fuel pfuel k k h r =
      .ok ({ build_count := h.build_count,
             sort_count := uintInc^[(sortPure pfuel k r).2] h.sort_count,
             array := h.array }, (sortPure pfuel k r).1) := by
  induction k generalizing fuel h r with
  | zero =>
    cases fuel with
    | zero => omega
    | succ fuel =>
      unfold heap_sort_loop sortPure
      rw [if_neg (by simp)]
      rfl
  | succ k ih =>
    cases fuel with
    | zero => omega
    | succ fuel =>
      unfold heap_sort_loop sortPure
      rw [if_pos (by omega), swapAt_of_lt (by omega) hk]
      simp only []
      rw [uintDec_of_pos (by omega) (by omega)]
      simp only [Nat.add_sub_cancel]
      rw [percolate_down_result_eq pfuel 0 k h _ (by rw [length_swapL]; omega) (by omega)
        (by omega) (by omega)]
      simp only []
      rw [ih fuel _ _ (by rw [sift_length, length_swapL]; omega)
        (by rw [sift_length, length_swapL]; exact hlen)
        (by rw [sift_length, length_swapL]; exact hpfuel) (by omega)]
      simp only [Nat.add_comm (sift pfuel 0 k (swapL r 0 (k + 1))).2,
        Function.iterate_add_apply]

/-! ## Heaps and their root -/

theorem isMaxHeap_iff_heapFrom (a : List Nat) : isMaxHeap a ↔ heapFrom 0 a.length a := by
  unfold isMaxHeap heapFrom
  constructor
  · intro H j _ hj
    exact H j hj
  · intro H j hj
    exact H j (Nat.zero_le j) hj

theorem root_ge_of_isMaxHeap {a : List Nat} (H : isMaxHeap a) (k : Nat) (hk : k < a.length) :
    a.getD k 0 ≤ a.getD 0 0 := by
  induction k using Nat.strong_induction_on with
  | _ k ih =>
    by_cases hk0 : k = 0
    · subst hk0
      exact Nat.le_refl _
    · have hp : (k - 1) / 2 < k := by omega
      have h1 := ih ((k - 1) / 2) hp (by omega)
      have h2 := H ((k - 1) / 2) (by omega)
      rcases Nat.even_or_odd k with he | ho
      · have hk2 : k = 2 * ((k - 1) / 2) + 2 := by
          obtain ⟨t, ht⟩ := he
          omega
        have h3 := h2.2 (by omega)
        rw [← hk2] at h3
        omega
      · have hk2 : k = 2 * ((k - 1) / 2) + 1 := by
          obtain ⟨t, ht⟩ := ho
          omega
        have h3 := h2.1 (by omega)
        rw [← hk2] at h3
        omega

theorem mem_le_root_of_isMaxHeap {a : List Nat} (H : isMaxHeap a) (x : Nat) (hx : x ∈ a) :
    x ≤ a.getD 0 0 := by
  obtain ⟨n, hn, rfl⟩ := List.mem_iff_getElem.mp hx
  rw [← List.getD_eq_getElem a 0 hn]
  exact root_ge_of_isMaxHeap H n hn

/-! ## Removing the root -/

theorem length_popRoot (a : List Nat) : (popRoot a).length = a.length - 1 := by
  unfold popRoot
  simp

theorem getD_popRoot (a : List Nat) (k : Nat) (hk : k < a.length - 1) :
    (popRoot a).getD k 0 = if k = 0 then a.getD (a.length - 1) 0 else a.getD k 0 := by
  unfold popRoot
  have h1 : k < ((a.set 0 (a.getD (a.length - 1) 0)).dropLast).length := by
    simp; omega
  rw [List.getD_eq_getElem _ 0 h1, List.getElem_dropLast,
    ← List.getD_eq_getElem _ 0 (by simp; omega), getD_set_nat]
  by_cases h0 : k = 0
  · have h2 : 0 < a.length := by omega
    simp [h0, h2]
  · simp [h0]

theorem popRoot_perm (a : List Nat) (h : a ≠ []) : (a.getD 0 0 :: popRoot a).Perm a := by
  cases a with
  | nil => exact absurd rfl h
  | cons x t =>
    unfold popRoot
    by_cases ht : t = []
    · subst ht
      simp
    · have hlast : (x :: t).getD ((x :: t).length - 1) 0 = t.getLast ht := by
        have hpos : 0 < t.length := List.length_pos.mpr ht
        have h1 : (x :: t).length - 1 = (t.length - 1) + 1 := by simp; omega
        rw [h1, List.getD_cons_succ, List.getLast_eq_getElem,
          List.getD_eq_getElem t 0 (by omega)]
      rw [hlast]
      simp only [List.set_cons_zero, List.getD_cons_zero]
      rw [List.dropLast_cons_of_ne_nil ht]
      refine List.Perm.cons x ?_
      have h2 := List.perm_append_singleton (t.getLast ht) t.dropLast
      rw [List.dropLast_append_getLast ht] at h2
      exact h2.symm

theorem heapExcept_popRoot {a : List Nat} (H : isMaxHeap a) :
    heapExcept 0 0 (a.length - 1) (popRoot a) := by
  constructor
  · intro j _ hj2 hj3
    have h1 := H j (by omega)
    constructor
    · intro hc
      rw [getD_popRoot a _ hc, getD_popRoot a _ hj2, if_neg (by omega), if_neg hj3]
      exact h1.1 (by omega)
    · intro hc
      rw [getD_popRoot a _ hc, getD_popRoot a _ hj2, if_neg (by omega), if_neg hj3]
      exact h1.2 (by omega)
  · intro p _ hp
    omega

theorem delete_max_eq (fuel : Nat) (h : Heap) (hpos : 0 < h.array.length)
    (hlen : h.array.length < 2147483648) (hfuel : h.array.length ≤ fuel) :
    delete_max fuel h = .ok (h.array.getD 0 0, afterDelete fuel h) := by
  unfold afterDelete
  unfold delete_max is_empty
  have hne : h.array.isEmpty = false := by
    cases hh : h.array with
    | nil => rw [hh] at hpos; simp at hpos
    | cons x t => rfl
  rw [hne]
  simp only [Bool.false_eq_true, if_false]
  rw [readAt_of_lt hpos, sizeMinusOne_of_pos hpos (by omega), readAt_of_lt (by omega)]
  simp only []
  rw [writeAt_of_lt _ hpos]
  simp only []
  have hpr : (h.array.set 0 (h.array.getD (h.array.length - 1) 0)).dropLast = popRoot h.array :=
    rfl
  rw [hpr]
  by_cases h1 : 0 < (popRoot h.array).length
  · have h2 := length_popRoot h.array
    rw [if_pos h1, if_pos h1, toUint_of_lt (by omega),
      percolate_down_eq fuel 0 (popRoot h.array).length
        { build_count := h.build_count, sort_count := h.sort_count, array := popRoot h.array }
        (Nat.le_refl _) (by omega) (by omega) (by omega)]
  · rw [if_neg h1, if_neg h1]

theorem afterDelete_array (fuel : Nat) (h : Heap) :
    (afterDelete fuel h).array =
      if 0 < (popRoot h.array).length then
        (sift fuel 0 (popRoot h.array).length (popRoot h.array)).1
      else popRoot h.array := by
  unfold afterDelete
  split_ifs <;> rfl

theorem afterDelete_length (fuel : Nat) (h : Heap) :
    (afterDelete fuel h).array.length = h.array.length - 1 := by
  rw [afterDelete_array]
  split_ifs
  · rw [sift_length, length_popRoot]
  · rw [length_popRoot]

theorem afterDelete_perm (fuel : Nat) (h : Heap) :
    (afterDelete fuel h).array.Perm (popRoot h.array) := by
  rw [afterDelete_array]
  split_ifs
  · exact sift_perm _ _ _ _ (Nat.le_refl _)
  · exact List.Perm.refl _

theorem afterDelete_cons_perm (fuel : Nat) (h : Heap) (hne : h.array ≠ []) :
    (h.array.getD 0 0 :: (afterDelete fuel h).array).Perm h.array :=
  ((afterDelete_perm fuel h).cons _).trans (popRoot_perm h.array hne)

theorem afterDelete_isMaxHeap (fuel : Nat) (h : Heap) (H : isMaxHeap h.array)
    (hpos : 0 < h.array.length) (hfuel : h.array.length ≤ fuel) :
    isMaxHeap (afterDelete fuel h).array := by
  rw [afterDelete_array]
  split_ifs with h1
  · rw [isMaxHeap_iff_heapFrom, sift_length]
    have h2 := heapExcept_popRoot H
    rw [← length_popRoot] at h2
    have h3 := length_popRoot h.array
    exact sift_heap fuel 0 0 _ _ (Nat.le_refl _) (by omega) (Nat.le_refl _) h2
  · intro i hi
    omega

theorem delete_max_repeat_spec (k fuel : Nat) (h : Heap) (hk : h.array.length = k)
    (H : isMaxHeap h.array) (hlen : k < 2147483648) (hfuel : k ≤ fuel) :
    ∃ out hEnd, delete_max_repeat k fuel h = .ok (out, hEnd) ∧ out.Perm h.array ∧
      List.Sorted (fun x y => y ≤ x) out ∧ hEnd.array = [] := by
  induction k generalizing h with
  | zero =>
    refine ⟨[], h, rfl, ?_, List.sorted_nil, List.length_eq_zero.mp hk⟩
    rw [List.length_eq_zero.mp hk]
  | succ k ih =>
    have hpos : 0 < h.array.length := by omega
    have hne : h.array ≠ [] := List.length_pos.mp hpos
    have hH := afterDelete_isMaxHeap fuel h H hpos (by omega)
    have hL := afterDelete_length fuel h
    obtain ⟨out, hEnd, e1, e2, e3, e4⟩ := ih (afterDelete fuel h) (by omega) hH (by omega)
      (by omega)
    have hP := afterDelete_cons_perm fuel h hne
    refine ⟨h.array.getD 0 0 :: out, hEnd, ?_, (e2.cons _).trans hP, ?_, e4⟩
    · unfold delete_max_repeat
      rw [delete_max_eq fuel h hpos (by omega) (by omega)]
      simp only []
      rw [e1]
    · refine List.sorted_cons.mpr ⟨?_, e3⟩
      intro b hb
      have hb2 : b ∈ h.array := hP.subset (List.mem_cons_of_mem _ (e2.subset hb))
      exact mem_le_root_of_isMaxHeap H b hb2

theorem build_heap_eq (fuel : Nat) (h : Heap) (hlen : h.array.length < 2147483648)
    (hfuel : h.array.length < fuel) :
    build_heap fuel h =
      .ok { build_count :=
              uintInc^[(buildPure fuel h.array.length (h.array.length / 2) h.array).2]
                h.build_count,
            sort_count := h.sort_count,
            array := (buildPure fuel h.array.length (h.array.length / 2) h.array).1 } := by
  unfold build_heap
  simp only []
  rw [toUint_of_lt (by omega)]
  exact build_heap_loop_eq fuel h.array.length (h.array.length / 2) fuel h (Nat.le_refl _)
    (by omega) (by omega) hfuel (by omega)

theorem heapFrom_half (a : List Nat) : heapFrom (a.length / 2) a.length a := by
  intro j hj1 hj2
  constructor <;> intro hc <;> omega

theorem build_heap_isMaxHeap (fuel : Nat) (a : List Nat) (hfuel : a.length < fuel) :
    isMaxHeap (buildPure fuel a.length (a.length / 2) a).1 := by
  rw [isMaxHeap_iff_heapFrom, buildPure_length]
  exact buildPure_heap fuel a.length _ a (Nat.le_refl _) hfuel (heapFrom_half a)

theorem heap_sort_eq (fuel : Nat) (h : Heap) (hpos : 0 < h.array.length)
    (hlen : h.array.length < 2147483648) (hfuel : h.array.length ≤ fuel) :
    heap_sort fuel h =
      .ok ({ build_count := h.build_count,
             sort_count := uintInc^[(sortPure fuel (h.array.length - 1) h.array).2] h.sort_count,
             array := h.array }, (sortPure fuel (h.array.length - 1) h.array).1) := by
  unfold heap_sort
  simp only []
  rw [sizeMinusOne_of_pos hpos (by omega), toUint_of_lt (by omega)]
  exact heap_sort_loop_eq fuel (h.array.length - 1) fuel h h.array (by omega) (by omega)
    hfuel (by omega)

theorem getElem?_zero_of_ne_nil {a : List Nat} (hne : a ≠ []) : a[0]? = some (a.getD 0 0) := by
  cases a with
  | nil => exact absurd rfl hne
  | cons x t => simp

/-! ## Claims -/

/-- C1 (fails on the code): the constructor applied to `[3, 2, 1]` leaves the
backing array `[3, 2, 1]`, and `heap_sort` on that heap writes `[2, 1, 3]` to
`out`, which is not in non-decreasing order. The boundary passed to
`percolate_down` is one less than the number of unsorted cells. -/
theorem heap_sort_output_unsorted (f : Nat) :
    Heap.ofItems (f + 4) [3, 2, 1] =
      .ok { build_count := 1, sort_count := 0, array := [3, 2, 1] } ∧
    heap_sort (f + 4) { build_count := 1, sort_count := 0, array := [3, 2, 1] } =
      .ok ({ build_count := 1, sort_count := 2, array := [3, 2, 1] }, [2, 1, 3]) ∧
    ¬ nonDecreasing [2, 1, 3] :=
  ⟨rfl, rfl, by decide⟩

/-- C2: for every input sequence `xs` shorter than `2^31` (and fuel above its
length), the constructor succeeds, `xs.length` successive calls of `delete_max`
all succeed, the values returned are a permutation of `xs` in non-increasing
order, and the heap is empty afterwards. -/
theorem construct_then_delete_max_all (fuel : Nat) (xs : List Nat)
    (hlen : xs.length < 2147483648) (hfuel : xs.length < fuel) :
    ∃ h out hEnd, Heap.ofItems fuel xs = .ok h ∧
      delete_max_repeat xs.length fuel h = .ok (out, hEnd) ∧
      out.Perm xs ∧ List.Sorted (fun x y => y ≤ x) out ∧ is_empty hEnd = true := by
  have hb := build_heap_eq fuel { build_count := 0, sort_count := 0, array := xs } hlen hfuel
  have hH := build_heap_isMaxHeap fuel xs hfuel
  have hP := buildPure_perm fuel xs.length (xs.length / 2) xs (Nat.le_refl _)
  have hL := buildPure_length fuel xs.length (xs.length / 2) xs
  obtain ⟨out, hEnd, e1, e2, e3, e4⟩ := delete_max_repeat_spec xs.length fuel
    { build_count := uintInc^[(buildPure fuel xs.length (xs.length / 2) xs).2] 0,
      sort_count := 0,
      array := (buildPure fuel xs.length (xs.length / 2) xs).1 } hL hH hlen (by omega)
  refine ⟨_, out, hEnd, hb, e1, e2.trans hP, e3, ?_⟩
  unfold is_empty
  rw [e4]
  rfl

/-- Instance of the round trip at `[3, 1, 6, 5, 2, 4]` with fuel 7. -/
theorem construct_then_delete_max_all_witness :
    [3, 1, 6, 5, 2, 4].length < 2147483648 ∧ [3, 1, 6, 5, 2, 4].length < 7 ∧
    ∃ h out hEnd, Heap.ofItems 7 [3, 1, 6, 5, 2, 4] = .ok h ∧
      delete_max_repeat [3, 1, 6, 5, 2, 4].length 7 h = .ok (out, hEnd) ∧
      out.Perm [3, 1, 6, 5, 2, 4] ∧ List.Sorted (fun x y => y ≤ x) out ∧
      is_empty hEnd = true :=
  ⟨by decide, by decide,
    construct_then_delete_max_all 7 [3, 1, 6, 5, 2, 4] (by decide) (by decide)⟩

/-- C3 (fails on the code): `[1]` satisfies the max-heap property, `insert(2)`
on it returns normally with backing array `[1, 2]`, and `[1, 2]` violates the
max-heap property at the root. `bubble_up` is started at the index of the old
last element, so the new element is never compared with its parent. -/
theorem insert_breaks_heap_property (f : Nat) :
    isMaxHeap [1] ∧
    insert (f + 1) 2 { build_count := 0, sort_count := 0, array := [1] } =
      .ok { build_count := 0, sort_count := 0, array := [1, 2] } ∧
    ¬ isMaxHeap [1, 2] :=
  ⟨by decide, rfl, by decide⟩

/-- C4: for every input sequence `xs` shorter than `2^31` (and fuel above its
length), the constructor succeeds and its backing array is a permutation of `xs`
that satisfies the max-heap property. -/
theorem constructor_establishes_heap (fuel : Nat) (xs : List Nat)
    (hlen : xs.length < 2147483648) (hfuel : xs.length < fuel) :
    ∃ h, Heap.ofItems fuel xs = .ok h ∧ h.array.Perm xs ∧ isMaxHeap h.array :=
  ⟨_, build_heap_eq fuel { build_count := 0, sort_count := 0, array := xs } hlen hfuel,
    buildPure_perm fuel xs.length (xs.length / 2) xs (Nat.le_refl _),
    build_heap_isMaxHeap fuel xs hfuel⟩

/-- Instance of the constructor property at `[3, 1, 6, 5, 2, 4]` with fuel 7. -/
theorem constructor_establishes_heap_witness :
    [3, 1, 6, 5, 2, 4].length < 2147483648 ∧ [3, 1, 6, 5, 2, 4].length < 7 ∧
    ∃ h, Heap.ofItems 7 [3, 1, 6, 5, 2, 4] = .ok h ∧ h.array.Perm [3, 1, 6, 5, 2, 4] ∧
      isMaxHeap h.array :=
  ⟨by decide, by decide,
    constructor_establishes_heap 7 [3, 1, 6, 5, 2, 4] (by decide) (by decide)⟩

/-- C5: on every non-empty heap whose backing array (shorter than `2^31`)
satisfies the max-heap property, `delete_max` succeeds (given fuel at least the
length) and the array it leaves satisfies the max-heap property again. -/
theorem delete_max_preserves_heap (fuel : Nat) (h : Heap) (H : isMaxHeap h.array)
    (hne : h.array ≠ []) (hlen : h.array.length < 2147483648)
    (hfuel : h.array.length ≤ fuel) :
    ∃ v h', delete_max fuel h = .ok (v, h') ∧ isMaxHeap h'.array :=
  ⟨_, _, delete_max_eq fuel h (List.length_pos.mpr hne) hlen hfuel,
    afterDelete_isMaxHeap fuel h H (List.length_pos.mpr hne) hfuel⟩

/-- Instance of heap preservation at the heap `[6, 5, 4, 1, 2, 3]` with fuel 6. -/
theorem delete_max_preserves_heap_witness :
    isMaxHeap [6, 5, 4, 1, 2, 3] ∧ [6, 5, 4, 1, 2, 3] ≠ [] ∧
    [6, 5, 4, 1, 2, 3].length < 2147483648 ∧ [6, 5, 4, 1, 2, 3].length ≤ 6 ∧
    ∃ v h', delete_max 6 { build_count := 6, sort_count := 0, array := [6, 5, 4, 1, 2, 3] } =
      .ok (v, h') ∧ isMaxHeap h'.array :=
  ⟨by decide, by decide, by decide, by decide,
    delete_max_preserves_heap 6 { build_count := 6, sort_count := 0, array := [6, 5, 4, 1, 2, 3] }
      (by decide) (by decide) (by decide) (by decide)⟩

/-- C6: on every non-empty heap whose backing array (shorter than `2^31`)
satisfies the max-heap property, `delete_max` returns the element that was at
index 0, that value is `≥` every element left in the heap, and the returned
value together with the remaining elements is a permutation of the original
contents. -/
theorem delete_max_returns_maximum (fuel : Nat) (h : Heap) (H : isMaxHeap h.array)
    (hne : h.array ≠ []) (hlen : h.array.length < 2147483648)
    (hfuel : h.array.length ≤ fuel) :
    ∃ v h', delete_max fuel h = .ok (v, h') ∧ h.array[0]? = some v ∧
      (∀ x ∈ h'.array, x ≤ v) ∧ (v :: h'.array).Perm h.array := by
  refine ⟨_, _, delete_max_eq fuel h (List.length_pos.mpr hne) hlen hfuel,
    getElem?_zero_of_ne_nil hne, ?_, afterDelete_cons_perm fuel h hne⟩
  intro x hx
  exact mem_le_root_of_isMaxHeap H x
    ((afterDelete_cons_perm fuel h hne).subset (List.mem_cons_of_mem _ hx))

/-- Instance of max-extraction at the heap `[6, 5, 4, 1, 2, 3]` with fuel 6. -/
theorem delete_max_returns_maximum_witness :
    isMaxHeap [6, 5, 4, 1, 2, 3] ∧ [6, 5, 4, 1, 2, 3] ≠ [] ∧
    [6, 5, 4, 1, 2, 3].length < 2147483648 ∧ [6, 5, 4, 1, 2, 3].length ≤ 6 ∧
    ∃ v h', delete_max 6 { build_count := 0, sort_count := 0, array := [6, 5, 4, 1, 2, 3] } =
      .ok (v, h') ∧ [6, 5, 4, 1, 2, 3][0]? = some v ∧
      (∀ x ∈ h'.array, x ≤ v) ∧ (v :: h'.array).Perm [6, 5, 4, 1, 2, 3] :=
  ⟨by decide, by decide, by decide, by decide,
    delete_max_returns_maximum 6
      { build_count := 0, sort_count := 0, array := [6, 5, 4, 1, 2, 3] }
      (by decide) (by decide) (by decide) (by decide)⟩

/-- C7 (fails on the code): `insert(v)` on the empty heap does not complete
within bounds. `array.size() - 1` is taken before `push_back` and wraps to
`UINT_MAX`, so `bubble_up(4294967295)` reads `array[2147483647]` and
`array[4294967295]` in a one-element vector. -/
theorem insert_on_empty_out_of_bounds (f v : Nat) :
    insert (f + 1) v Heap.init = .error .outOfBounds :=
  rfl

/-- C8: `delete_max` on an empty heap stops at the assertion with the heap as
it was; on every non-empty backing array shorter than `2^31`, heap-ordered or
not, it returns a value and a heap (given fuel at least the length), so no
access left the vector. -/
theorem delete_max_fails_iff_empty (fuel : Nat) (h : Heap) :
    (h.array = [] → delete_max fuel h = .error (.assertFailed h)) ∧
    (h.array ≠ [] → h.array.length < 2147483648 → h.array.length ≤ fuel →
      ∃ v h', delete_max fuel h = .ok (v, h')) := by
  constructor
  · intro he
    unfold delete_max is_empty
    rw [he]
    rfl
  · intro hne hlen hfuel
    exact ⟨_, _, delete_max_eq fuel h (List.length_pos.mpr hne) hlen hfuel⟩

/-- Instance at the empty heap and at the unordered array `[1, 7, 3]` with fuel 3. -/
theorem delete_max_fails_iff_empty_witness :
    delete_max 3 Heap.init = .error (.assertFailed Heap.init) ∧
    ∃ v h', delete_max 3 { build_count := 0, sort_count := 0, array := [1, 7, 3] } =
      .ok (v, h') :=
  ⟨(delete_max_fails_iff_empty 3 Heap.init).1 rfl,
    (delete_max_fails_iff_empty 3 { build_count := 0, sort_count := 0, array := [1, 7, 3] }).2
      (by decide) (by decide) (by decide)⟩

/-- C9 (fails on the code): `heap_sort` on the empty heap does not complete
within bounds. `result.size() - 1` wraps to `UINT_MAX`, the loop test `i != 0`
passes, and the first iteration reads `result[0]` in an empty vector. -/
theorem heap_sort_on_empty_out_of_bounds (f : Nat) :
    heap_sort (f + 1) Heap.init = .error .outOfBounds :=
  rfl

/-- C10: for every heap whose backing array has at least one and fewer than
`2^31` elements, `heap_sort` succeeds (given fuel at least the length) and the
vector it writes has the length of the heap and is a permutation of the heap's
contents. -/
theorem heap_sort_output_perm (fuel : Nat) (h : Heap) (hpos : 1 ≤ h.array.length)
    (hlen : h.array.length < 2147483648) (hfuel : h.array.length ≤ fuel) :
    ∃ h' out, heap_sort fuel h = .ok (h', out) ∧ out.length = h.array.length ∧
      out.Perm h.array :=
  ⟨_, _, heap_sort_eq fuel h hpos hlen hfuel, sortPure_length _ _ _,
    sortPure_perm _ _ _ (by omega)⟩

/-- Instance of the permutation property at the heap `[3, 2, 1]` with fuel 3. -/
theorem heap_sort_output_perm_witness :
    1 ≤ [3, 2, 1].length ∧ [3, 2, 1].length < 2147483648 ∧ [3, 2, 1].length ≤ 3 ∧
    ∃ h' out, heap_sort 3 { build_count := 1, sort_count := 0, array := [3, 2, 1] } =
      .ok (h', out) ∧ out.length = [3, 2, 1].length ∧ out.Perm [3, 2, 1] :=
  ⟨by decide, by decide, by decide,
    heap_sort_output_perm 3 { build_count := 1, sort_count := 0, array := [3, 2, 1] }
      (by decide) (by decide) (by decide)⟩

/-- C11: for every heap whose backing array has at least one and fewer than
`2^31` elements, `heap_sort` succeeds (given fuel at least the length) and the
heap it leaves has the same backing array, element for element, and the same
`build_count` as before the call. -/
theorem heap_sort_keeps_heap (fuel : Nat) (h : Heap) (hpos : 1 ≤ h.array.length)
    (hlen : h.array.length < 2147483648) (hfuel : h.array.length ≤ fuel) :
    ∃ h' out, heap_sort fuel h = .ok (h', out) ∧ h'.array = h.array ∧
      build_heap_count h' = build_heap_count h :=
  ⟨_, _, heap_sort_eq fuel h hpos hlen hfuel, rfl, rfl⟩

/-- Instance of the frame property at the heap `[6, 5, 4, 1, 2, 3]` with fuel 6. -/
theorem heap_sort_keeps_heap_witness :
    1 ≤ [6, 5, 4, 1, 2, 3].length ∧ [6, 5, 4, 1, 2, 3].length < 2147483648 ∧
    [6, 5, 4, 1, 2, 3].length ≤ 6 ∧
    ∃ h' out, heap_sort 6 { build_count := 6, sort_count := 0, array := [6, 5, 4, 1, 2, 3] } =
      .ok (h', out) ∧ h'.array = [6, 5, 4, 1, 2, 3] ∧
      build_heap_count h' =
        build_heap_count { build_count := 6, sort_count := 0, array := [6, 5, 4, 1, 2, 3] } :=
  ⟨by decide, by decide, by decide,
    heap_sort_keeps_heap 6 { build_count := 6, sort_count := 0, array := [6, 5, 4, 1, 2, 3] }
      (by decide) (by decide) (by decide)⟩

/-- C12 (fails on the code): on the heap built from `[2, 1]` one call of
`heap_sort` makes one `percolate_down` invocation and leaves
`heap_sort_count() = 1`; a second call on the same heap makes one invocation
again and leaves `heap_sort_count() = 2`. `sort_count` is never reset, so it
holds the total over all calls. -/
theorem heap_sort_count_accumulates (f : Nat) :
    Heap.ofItems (f + 3) [2, 1] =
      .ok { build_count := 1, sort_count := 0, array := [2, 1] } ∧
    heap_sort (f + 3) { build_count := 1, sort_count := 0, array := [2, 1] } =
      .ok ({ build_count := 1, sort_count := 1, array := [2, 1] }, [1, 2]) ∧
    heap_sort (f + 3) { build_count := 1, sort_count := 1, array := [2, 1] } =
      .ok ({ build_count := 1, sort_count := 2, array := [2, 1] }, [1, 2]) ∧
    heap_sort_count { build_count := 1, sort_count := 2, array := [2, 1] } ≠
      heap_sort_count { build_count := 1, sort_count := 1, array := [2, 1] } :=
  ⟨rfl, rfl, rfl, by decide⟩

/-- C15: the constructor applied to `[3, 1, 6, 5, 2, 4]` leaves the backing
array `[6, 5, 4, 1, 2, 3]`; `heap_sort` on that heap writes
`[1, 2, 3, 4, 5, 6]`; six calls of `delete_max` on that heap return
`6, 5, 4, 3, 2, 1` in that order. -/
theorem worked_example (f : Nat) :
    Heap.ofItems (f + 7) [3, 1, 6, 5, 2, 4] =
      .ok { build_count := 6, sort_count := 0, array := [6, 5, 4, 1, 2, 3] } ∧
    heap_sort (f + 7) { build_count := 6, sort_count := 0, array := [6, 5, 4, 1, 2, 3] } =
      .ok ({ build_count := 6, sort_count := 8, array := [6, 5, 4, 1, 2, 3] },
        [1, 2, 3, 4, 5, 6]) ∧
    delete_max_repeat 6 (f + 7)
        { build_count := 6, sort_count := 0, array := [6, 5, 4, 1, 2, 3] } =
      .ok ([6, 5, 4, 3, 2, 1], { build_count := 14, sort_count := 0, array := [] }) :=
  ⟨rfl, rfl, rfl⟩

/-! ## `bubble_up` and `insert` -/

theorem getParentIndex_of_pos {i : Nat} (h0 : 0 < i) (h : i < 4294967296) :
    getParentIndex i = (i - 1) / 2 := by
  unfold getParentIndex
  rw [uintDec_of_pos h0 h]

theorem bubble_length (fuel index : Nat) (a : List Nat) :
    (bubble fuel index a).length = a.length := by
  induction fuel generalizing index a with
  | zero => rfl
  | succ fuel ih =>
    unfold bubble
    split_ifs
    · rfl
    · rw [ih, length_swapL]
    · rfl

theorem bubble_up_eq (fuel index : Nat) (h : Heap) (hidx : index < h.array.length)
    (hlen : index < 4294967296) (hfuel : index < fuel) :
    bubble_up fuel index h =
      .ok { build_count := h.build_count, sort_count := h.sort_count,
            array := bubble fuel index h.array } := by
  induction fuel generalizing index h with
  | zero => omega
  | succ fuel ih =>
    unfold bubble_up bubble
    simp only []
    by_cases h0 : index = 0
    · rw [if_pos h0, if_pos h0]
    · have hp : (index - 1) / 2 < index := by omega
      rw [if_neg h0, if_neg h0, getParentIndex_of_pos (by omega) hlen,
        readAt_of_lt (by omega), readAt_of_lt hidx]
      simp only []
      by_cases hc : h.array.getD ((index - 1) / 2) 0 < h.array.getD index 0
      · rw [if_pos hc, if_pos hc, swapAt_of_lt (by omega) hidx]
        simp only []
        rw [ih ((index - 1) / 2) _ (by simp only [length_swapL]; omega) (by omega) (by omega)]
      · rw [if_neg hc, if_neg hc]

theorem insert_eq (fuel value : Nat) (h : Heap) (hpos : 0 < h.array.length)
    (hlen : h.array.length < 2147483648) (hfuel : h.array.length ≤ fuel) :
    insert fuel value h =
      .ok { build_count := h.build_count, sort_count := h.sort_count,
            array := bubble fuel (h.array.length - 1) (h.array ++ [value]) } := by
  unfold insert
  simp only []
  rw [sizeMinusOne_of_pos hpos (by omega), toUint_of_lt (by omega),
    if_pos (by simp)]
  exact bubble_up_eq fuel (h.array.length - 1)
    { build_count := h.build_count, sort_count := h.sort_count, array := h.array ++ [value] }
    (by simp only [List.length_append, List.length_singleton]; omega) (by omega) (by omega)

theorem parent_ge_of_isMaxHeap {a : List Nat} (H : isMaxHeap a) (k : Nat) (hk0 : 0 < k)
    (hk : k < a.length) : a.getD k 0 ≤ a.getD ((k - 1) / 2) 0 := by
  have h2 := H ((k - 1) / 2) (by omega)
  rcases Nat.even_or_odd k with he | ho
  · have hk2 : k = 2 * ((k - 1) / 2) + 2 := by
      obtain ⟨t, ht⟩ := he
      omega
    have h3 := h2.2 (by omega)
    rw [← hk2] at h3
    exact h3
  · have hk2 : k = 2 * ((k - 1) / 2) + 1 := by
      obtain ⟨t, ht⟩ := ho
      omega
    have h3 := h2.1 (by omega)
    rw [← hk2] at h3
    exact h3

theorem bubble_append_of_isMaxHeap (fuel value : Nat) {a : List Nat} (H : isMaxHeap a) :
    bubble fuel (a.length - 1) (a ++ [value]) = a ++ [value] := by
  cases fuel with
  | zero => rfl
  | succ fuel =>
    unfold bubble
    by_cases h0 : a.length - 1 = 0
    · rw [if_pos h0]
    · have h1 := parent_ge_of_isMaxHeap H (a.length - 1) (by omega) (by omega)
      rw [if_neg h0, List.getD_append _ _ _ _ (by omega), List.getD_append _ _ _ _ (by omega),
        if_neg (by omega)]

/-! ## Counting `percolate_down` invocations -/

theorem uintInc_iterate_pos (c k : Nat) (hk : 0 < k) : uintInc^[k] c = toUint (c + k) := by
  induction k with
  | zero => omega
  | succ k ih =>
    rw [Function.iterate_succ_apply']
    by_cases hk0 : k = 0
    · subst hk0
      rfl
    · rw [ih (by omega)]
      unfold uintInc toUint
      omega

theorem uintInc_iterate_of_lt (c k : Nat) (h : c + k < 4294967296) : uintInc^[k] c = c + k := by
  by_cases hk0 : k = 0
  · subst hk0
    rfl
  · rw [uintInc_iterate_pos c k (by omega), toUint_of_lt h]

theorem sift_count_bound (fuel index size : Nat) (a : List Nat) (hidx : index < size)
    (hfuel : size - index < fuel) :
    (index + 1) * 2 ^ ((sift fuel index size a).2 - 1) ≤ size := by
  induction fuel generalizing index a with
  | zero => omega
  | succ fuel ih =>
    unfold sift
    split_ifs with h1 h2
    · simp only [Nat.sub_self, Nat.pow_zero, Nat.mul_one]
      omega
    · have hc := maxChild_cases index size a
      have hm : 2 * index + 1 ≤ maxChild index size a ∧ maxChild index size a < size := by omega
      have h3 := ih (maxChild index size a) (swapL a index (maxChild index size a)) hm.2
        (by omega)
      have h4 := sift_count_pos fuel (maxChild index size a) size
        (swapL a index (maxChild index size a)) (by omega)
      simp only [Nat.add_sub_cancel]
      have h5 : (sift fuel (maxChild index size a) size
          (swapL a index (maxChild index size a))).2 =
          ((sift fuel (maxChild index size a) size
            (swapL a index (maxChild index size a))).2 - 1) + 1 := by omega
      rw [h5, Nat.pow_succ]
      have h6 : (index + 1) * 2 ≤ maxChild index size a + 1 := by omega
      calc (index + 1) * (2 ^ ((sift fuel (maxChild index size a) size
              (swapL a index (maxChild index size a))).2 - 1) * 2)
          = ((index + 1) * 2) * 2 ^ ((sift fuel (maxChild index size a) size
              (swapL a index (maxChild index size a))).2 - 1) := by ring
        _ ≤ (maxChild index size a + 1) * 2 ^ ((sift fuel (maxChild index size a) size
              (swapL a index (maxChild index size a))).2 - 1) := Nat.mul_le_mul_right _ h6
        _ ≤ size := h3
    · simp only [Nat.sub_self, Nat.pow_zero, Nat.mul_one]
      omega

theorem sift_count_le (fuel index size : Nat) (a : List Nat) (hidx : index < size)
    (hfuel : size - index < fuel) : (sift fuel index size a).2 ≤ size := by
  have h1 := sift_count_bound fuel index size a hidx hfuel
  have h2 := sift_count_pos fuel index size a (by omega)
  have h3 : (sift fuel index size a).2 - 1 < 2 ^ ((sift fuel index size a).2 - 1) :=
    Nat.lt_two_pow _
  have h4 : 1 * 2 ^ ((sift fuel index size a).2 - 1) ≤
      (index + 1) * 2 ^ ((sift fuel index size a).2 - 1) :=
    Nat.mul_le_mul_right _ (by omega)
  omega

theorem afterDelete_build_count_one (fuel : Nat) (h : Heap) (h1 : h.array.length = 1) :
    (afterDelete fuel h).build_count = h.build_count := by
  unfold afterDelete
  rw [if_neg (by rw [length_popRoot]; omega)]

theorem afterDelete_build_count (fuel : Nat) (h : Heap) (h2 : 2 ≤ h.array.length) :
    (afterDelete fuel h).build_count =
      uintInc^[(sift fuel 0 (popRoot h.array).length (popRoot h.array)).2] h.build_count := by
  unfold afterDelete
  rw [if_pos (by rw [length_popRoot]; omega)]

/-- C13: for every non-empty backing array of length `n < 2^31`, heap-ordered
or not, and every value `v`, `insert(v)` returns (given fuel at least `n`) and
leaves a backing array of length `n + 1`, and `delete_max` returns and leaves a
backing array of length `n - 1`. -/
theorem insert_delete_max_size (fuel v : Nat) (h : Heap) (hpos : 0 < h.array.length)
    (hlen : h.array.length < 2147483648) (hfuel : h.array.length ≤ fuel) :
    (∃ h1, insert fuel v h = .ok h1 ∧ h1.array.length = h.array.length + 1) ∧
    (∃ m h2, delete_max fuel h = .ok (m, h2) ∧ h2.array.length = h.array.length - 1) := by
  refine ⟨⟨_, insert_eq fuel v h hpos hlen hfuel, ?_⟩,
    ⟨_, _, delete_max_eq fuel h hpos hlen hfuel, afterDelete_length fuel h⟩⟩
  simp only [bubble_length, List.length_append, List.length_singleton]

/-- Instance of the size property at the unordered array `[1, 7, 3]`, value 9, fuel 3. -/
theorem insert_delete_max_size_witness :
    0 < [1, 7, 3].length ∧ [1, 7, 3].length < 2147483648 ∧ [1, 7, 3].length ≤ 3 ∧
    (∃ h1, insert 3 9 { build_count := 0, sort_count := 0, array := [1, 7, 3] } = .ok h1 ∧
      h1.array.length = [1, 7, 3].length + 1) ∧
    (∃ m h2, delete_max 3 { build_count := 0, sort_count := 0, array := [1, 7, 3] } =
      .ok (m, h2) ∧ h2.array.length = [1, 7, 3].length - 1) :=
  ⟨by decide, by decide, by decide,
    insert_delete_max_size 3 9 { build_count := 0, sort_count := 0, array := [1, 7, 3] }
      (by decide) (by decide) (by decide)⟩

/-- C14: on every heap with a non-empty backing array shorter than `2^31`
(given fuel at least the length): `insert` and `heap_sort` return and leave
`build_heap_count()` at least what it was; `delete_max` returns and increments
`build_count` some `k` times, `k` at most the length, and whenever
`build_count + k` still fits in 32 bits (no overflow) `build_heap_count()`
afterwards is at least what it was. -/
theorem build_heap_count_monotone (fuel v : Nat) (h : Heap) (hpos : 0 < h.array.length)
    (hlen : h.array.length < 2147483648) (hfuel : h.array.length ≤ fuel) :
    (∃ h1, insert fuel v h = .ok h1 ∧ build_heap_count h ≤ build_heap_count h1) ∧
    (∃ m h2 k, delete_max fuel h = .ok (m, h2) ∧ k ≤ h.array.length ∧
      build_heap_count h2 = uintInc^[k] (build_heap_count h) ∧
      (build_heap_count h + k < 4294967296 → build_heap_count h ≤ build_heap_count h2)) ∧
    (∃ h3 out, heap_sort fuel h = .ok (h3, out) ∧
      build_heap_count h ≤ build_heap_count h3) := by
  refine ⟨⟨_, insert_eq fuel v h hpos hlen hfuel, Nat.le_refl _⟩, ?_,
    ⟨_, _, heap_sort_eq fuel h hpos hlen hfuel, Nat.le_refl _⟩⟩
  by_cases h1 : h.array.length = 1
  · refine ⟨_, _, 0, delete_max_eq fuel h hpos hlen hfuel, Nat.zero_le _, ?_, ?_⟩
    · exact afterDelete_build_count_one fuel h h1
    · intro _
      unfold build_heap_count
      rw [afterDelete_build_count_one fuel h h1]
  · have hL := length_popRoot h.array
    have hk := sift_count_le fuel 0 (popRoot h.array).length (popRoot h.array) (by omega)
      (by omega)
    refine ⟨_, _, _, delete_max_eq fuel h hpos hlen hfuel, ?_,
      afterDelete_build_count fuel h (by omega), ?_⟩
    · omega
    · intro hno
      unfold build_heap_count at hno ⊢
      rw [afterDelete_build_count fuel h (by omega), uintInc_iterate_of_lt _ _ hno]
      omega

/-- Instance of counter monotonicity at the heap `[6, 5, 4, 1, 2, 3]` with
`build_count = 6`, value 9, fuel 6. -/
theorem build_heap_count_monotone_witness :
    0 < [6, 5, 4, 1, 2, 3].length ∧ [6, 5, 4, 1, 2, 3].length < 2147483648 ∧
    [6, 5, 4, 1, 2, 3].length ≤ 6 ∧
    (∃ h1, insert 6 9 { build_count := 6, sort_count := 0, array := [6, 5, 4, 1, 2, 3] } =
        .ok h1 ∧
      build_heap_count { build_count := 6, sort_count := 0, array := [6, 5, 4, 1, 2, 3] } ≤
        build_heap_count h1) ∧
    (∃ m h2 k, delete_max 6 { build_count := 6, sort_count := 0, array := [6, 5, 4, 1, 2, 3] } =
        .ok (m, h2) ∧ k ≤ [6, 5, 4, 1, 2, 3].length ∧
      build_heap_count h2 = uintInc^[k]
        (build_heap_count { build_count := 6, sort_count := 0, array := [6, 5, 4, 1, 2, 3] }) ∧
      (build_heap_count { build_count := 6, sort_count := 0, array := [6, 5, 4, 1, 2, 3] } + k
          < 4294967296 →
        build_heap_count { build_count := 6, sort_count := 0, array := [6, 5, 4, 1, 2, 3] } ≤
          build_heap_count h2)) ∧
    (∃ h3 out, heap_sort 6 { build_count := 6, sort_count := 0, array := [6, 5, 4, 1, 2, 3] } =
        .ok (h3, out) ∧
      build_heap_count { build_count := 6, sort_count := 0, array := [6, 5, 4, 1, 2, 3] } ≤
        build_heap_count h3) :=
  ⟨by decide, by decide, by decide,
    build_heap_count_monotone 6 9
      { build_count := 6, sort_count := 0, array := [6, 5, 4, 1, 2, 3] }
      (by decide) (by decide) (by decide)⟩

/-- C16: on every heap whose backing array is non-empty, shorter than `2^31`
and satisfies the max-heap property, `insert(v)` returns (given fuel at least
the length) and the new backing array is the old array followed by `v`; the
counters are unchanged. -/
theorem insert_is_append (fuel v : Nat) (h : Heap) (H : isMaxHeap h.array)
    (hpos : 0 < h.array.length) (hlen : h.array.length < 2147483648)
    (hfuel : h.array.length ≤ fuel) :
    insert fuel v h =
      .ok { build_count := h.build_count, sort_count := h.sort_count,
            array := h.array ++ [v] } := by
  rw [insert_eq fuel v h hpos hlen hfuel, bubble_append_of_isMaxHeap fuel v H]

/-- Instance of the append behaviour at the heap `[6, 5, 4, 1, 2, 3]`, value 9, fuel 6. -/
theorem insert_is_append_witness :
    isMaxHeap [6, 5, 4, 1, 2, 3] ∧ 0 < [6, 5, 4, 1, 2, 3].length ∧
    [6, 5, 4, 1, 2, 3].length < 2147483648 ∧ [6, 5, 4, 1, 2, 3].length ≤ 6 ∧
    insert 6 9 { build_count := 6, sort_count := 0, array := [6, 5, 4, 1, 2, 3] } =
      .ok { build_count := 6, sort_count := 0, array := [6, 5, 4, 1, 2, 3] ++ [9] } :=
  ⟨by decide, by decide, by decide, by decide,
    insert_is_append 6 9 { build_count := 6, sort_count := 0, array := [6, 5, 4, 1, 2, 3] }
      (by decide) (by decide) (by decide) (by decide)⟩

/-- C17: on a backing array shorter than `2^31` (given fuel at least the
length), `delete_max` on exactly one element returns and leaves `build_count`
unchanged; on `n ≥ 2` elements it returns and `build_count` becomes
`build_count + k` reduced modulo `2^32` for some `k` with `k ≥ 1` and
`2^(k-1) ≤ n - 1`. -/
theorem delete_max_build_count (fuel : Nat) (h : Heap)
    (hlen : h.array.length < 2147483648) (hfuel : h.array.length ≤ fuel) :
    (h.array.length = 1 →
      ∃ m h', delete_max fuel h = .ok (m, h') ∧
        build_heap_count h' = build_heap_count h) ∧
    (2 ≤ h.array.length →
      ∃ m h' k, delete_max fuel h = .ok (m, h') ∧ 1 ≤ k ∧
        2 ^ (k - 1) ≤ h.array.length - 1 ∧
        build_heap_count h' = toUint (build_heap_count h + k)) := by
  constructor
  · intro h1
    exact ⟨_, _, delete_max_eq fuel h (by omega) hlen hfuel,
      afterDelete_build_count_one fuel h h1⟩
  · intro h2
    have hL := length_popRoot h.array
    have hk1 := sift_count_pos fuel 0 (popRoot h.array).length (popRoot h.array) (by omega)
    have hk2 := sift_count_bound fuel 0 (popRoot h.array).length (popRoot h.array) (by omega)
      (by omega)
    refine ⟨_, _, _, delete_max_eq fuel h (by omega) hlen hfuel, hk1, ?_, ?_⟩
    · rw [Nat.zero_add, Nat.one_mul] at hk2
      exact Nat.le_trans hk2 (Nat.le_of_eq hL)
    · unfold build_heap_count
      rw [afterDelete_build_count fuel h h2, uintInc_iterate_pos _ _ hk1]

/-- Instance at the one-element heap `[5]` and at the heap `[6, 5, 4, 1, 2, 3]`, fuel 6. -/
theorem delete_max_build_count_witness :
    (∃ m h', delete_max 6 { build_count := 0, sort_count := 0, array := [5] } = .ok (m, h') ∧
      build_heap_count h' =
        build_heap_count { build_count := 0, sort_count := 0, array := [5] }) ∧
    (∃ m h' k, delete_max 6 { build_count := 6, sort_count := 0, array := [6, 5, 4, 1, 2, 3] } =
        .ok (m, h') ∧ 1 ≤ k ∧ 2 ^ (k - 1) ≤ [6, 5, 4, 1, 2, 3].length - 1 ∧
      build_heap_count h' = toUint
        (build_heap_count { build_count := 6, sort_count := 0, array := [6, 5, 4, 1, 2, 3] }
          + k)) :=
  ⟨(delete_max_build_count 6 { build_count := 0, sort_count := 0, array := [5] }
      (by decide) (by decide)).1 (by decide),
    (delete_max_build_count 6
      { build_count := 6, sort_count := 0, array := [6, 5, 4, 1, 2, 3] }
      (by decide) (by decide)).2 (by decide)⟩

/-! ## The loop of `build_heap` as a sequence of calls -/

theorem match_eq_bind {α β : Type} (x : Except Fault α) (g : α → Except Fault β) :
    (match x with
      | .error e => .error e
      | .ok v => g v) = (x >>= g) := by
  cases x <;> rfl

theorem build_heap_loop_eq_foldlM (pfuel size k fuel : Nat) (h : Heap)
    (hk : k ≤ 2147483648) (hfuel : k < fuel) :
    build_heap_loop fuel pfuel (uintDec k) size h =
      (List.range k).reverse.foldlM (fun g i => percolate_down pfuel i size g) h := by
  induction k generalizing fuel h with
  | zero =>
    cases fuel with
    | zero => omega
    | succ fuel =>
      unfold build_heap_loop
      rw [uintDec_zero, if_neg (by simp)]
      rfl
  | succ k ih =>
    cases fuel with
    | zero => omega
    | succ fuel =>
      unfold build_heap_loop
      rw [uintDec_of_pos (by omega) (by omega)]
      have hne : k + 1 - 1 ≠ UINT_MAX := by unfold UINT_MAX; omega
      rw [if_pos hne, List.range_succ, List.reverse_append, List.reverse_singleton,
        List.singleton_append, List.foldlM_cons]
      simp only [Nat.add_sub_cancel]
      cases hp : percolate_down pfuel k size h with
      | error e => rfl
      | ok h1 =>
        simp only []
        rw [ih fuel h1 (by omega) (by omega)]
        rfl

/-! ## `sift` reads and writes below the boundary only -/

theorem getD_take_of_lt (a : List Nat) {k n : Nat} (hk : k < n) :
    (a.take n).getD k 0 = a.getD k 0 := by
  simp only [List.getD_eq_getElem?_getD, List.getElem?_take_of_lt hk]

theorem swapL_take (a : List Nat) {i j n : Nat} (hi : i < n) (hj : j < n) :
    swapL (a.take n) i j = (swapL a i j).take n := by
  unfold swapL
  rw [getD_take_of_lt a hi, getD_take_of_lt a hj, List.set_take, List.set_take]

theorem maxChild_take (index size : Nat) (a : List Nat) (h1 : 2 * index + 1 < size) :
    maxChild index size (a.take size) = maxChild index size a := by
  unfold maxChild
  rw [getD_take_of_lt a (show index < size by omega), getD_take_of_lt a h1]
  simp only []
  by_cases h2 : 2 * index + 2 < size
  · rw [getD_take_of_lt a h2,
      getD_take_of_lt a (show (if a.getD index 0 < a.getD (2 * index + 1) 0
        then 2 * index + 1 else index) < size by split_ifs <;> omega)]
  · simp only [h2, false_and, if_false]

theorem sift_take (fuel index size : Nat) (a : List Nat) :
    sift fuel index size (a.take size) =
      ((sift fuel index size a).1.take size, (sift fuel index size a).2) := by
  induction fuel generalizing index a with
  | zero => rfl
  | succ fuel ih =>
    unfold sift
    by_cases h1 : size ≤ 2 * index + 1
    · rw [if_pos h1, if_pos h1]
    · rw [if_neg h1, if_neg h1, maxChild_take index size a (by omega)]
      have hc := maxChild_cases index size a
      by_cases h2 : maxChild index size a = index
      · rw [if_neg (by simpa using h2), if_neg (by simpa using h2)]
      · rw [if_pos h2, if_pos h2, swapL_take a (show index < size by omega)
          (show maxChild index size a < size by omega), ih]

theorem ofItems_eq_foldlM (fuel : Nat) (xs : List Nat) (hlen : xs.length < 2147483648)
    (hfuel : xs.length < fuel) :
    Heap.ofItems fuel xs =
      (List.range (xs.length / 2)).reverse.foldlM
        (fun g i => percolate_down fuel i xs.length g)
        { build_count := 0, sort_count := 0, array := xs } := by
  unfold Heap.ofItems build_heap
  simp only []
  rw [toUint_of_lt (by omega)]
  exact build_heap_loop_eq_foldlM fuel xs.length (xs.length / 2) fuel _ (by omega) (by omega)

/-- C19: for an input shorter than `2^31` (given fuel above its length): when
the length is 0 or 1 the start index `(size/2)-1` wraps to `UINT_MAX`, the
constructor returns with the backing array equal to the input and both counters
0; when the length is `n ≥ 2` the start index is `n/2 - 1` and the constructor
is exactly the sequence of calls `percolate_down(i, n)` for
`i = n/2-1, n/2-2, ..., 0`, in that order. -/
theorem build_heap_loop_indices (fuel : Nat) (xs : List Nat)
    (hlen : xs.length < 2147483648) (hfuel : xs.length < fuel) :
    (xs.length ≤ 1 →
      uintDec (toUint xs.length / 2) = UINT_MAX ∧
      ∃ h, Heap.ofItems fuel xs = .ok h ∧ h.array = xs ∧
        build_heap_count h = 0 ∧ heap_sort_count h = 0) ∧
    (2 ≤ xs.length →
      uintDec (toUint xs.length / 2) = xs.length / 2 - 1 ∧
      Heap.ofItems fuel xs =
        (List.range (xs.length / 2)).reverse.foldlM
          (fun g i => percolate_down fuel i xs.length g)
          { build_count := 0, sort_count := 0, array := xs }) := by
  constructor
  · intro h1
    have h0 : xs.length / 2 = 0 := by omega
    refine ⟨?_, { build_count := 0, sort_count := 0, array := xs }, ?_, rfl, rfl, rfl⟩
    · rw [toUint_of_lt (by omega), h0, uintDec_zero]
    · rw [ofItems_eq_foldlM fuel xs hlen hfuel, h0]
      rfl
  · intro h2
    refine ⟨?_, ofItems_eq_foldlM fuel xs hlen hfuel⟩
    rw [toUint_of_lt (by omega), uintDec_of_pos (by omega) (by omega)]

/-- Instance at the one-element input `[5]` and at `[3, 1, 6, 5, 2, 4]`, fuel 7. -/
theorem build_heap_loop_indices_witness :
    (uintDec (toUint [5].length / 2) = UINT_MAX ∧
      ∃ h, Heap.ofItems 7 [5] = .ok h ∧ h.array = [5] ∧
        build_heap_count h = 0 ∧ heap_sort_count h = 0) ∧
    (uintDec (toUint [3, 1, 6, 5, 2, 4].length / 2) = [3, 1, 6, 5, 2, 4].length / 2 - 1 ∧
      Heap.ofItems 7 [3, 1, 6, 5, 2, 4] =
        (List.range ([3, 1, 6, 5, 2, 4].length / 2)).reverse.foldlM
          (fun g i => percolate_down 7 i [3, 1, 6, 5, 2, 4].length g)
          { build_count := 0, sort_count := 0, array := [3, 1, 6, 5, 2, 4] }) :=
  ⟨(build_heap_loop_indices 7 [5] (by decide) (by decide)).1 (by decide),
    (build_heap_loop_indices 7 [3, 1, 6, 5, 2, 4] (by decide) (by decide)).2 (by decide)⟩

/-- C20: for every vector `a` with `size ≤ length(a) < 2^31`, every
`index < 2^31` and fuel above `size - index`, both overloads of
`percolate_down` return; the vector they leave has the length of `a`, is a
permutation of `a`, and agrees with `a` at every position `< index` and at
every position `≥ size`; and the same call on `a` cut down to its first `size`
cells returns the same result cut down to `size` cells, so no position
`≥ size` is read or written. -/
theorem percolate_down_total_in_bounds (fuel index size : Nat) (g : Heap) (a : List Nat)
    (hsz : size ≤ a.length) (hlen : a.length < 2147483648) (hidx : index < 2147483648)
    (hfuel : size - index < fuel) :
    (∃ h', percolate_down fuel index size
          { build_count := g.build_count, sort_count := g.sort_count, array := a } = .ok h' ∧
        h'.array.length = a.length ∧ h'.array.Perm a ∧
        (∀ k, k < index ∨ size ≤ k → h'.array.getD k 0 = a.getD k 0) ∧
        percolate_down fuel index size
          { build_count := g.build_count, sort_count := g.sort_count,
            array := a.take size } =
          .ok { build_count := h'.build_count, sort_count := h'.sort_count,
                array := h'.array.take size }) ∧
    (∃ h' r, percolate_down_result fuel index size g a = .ok (h', r) ∧
        r.length = a.length ∧ r.Perm a ∧
        (∀ k, k < index ∨ size ≤ k → r.getD k 0 = a.getD k 0) ∧
        percolate_down_result fuel index size g (a.take size) = .ok (h', r.take size)) := by
  have htl : size ≤ (a.take size).length := by
    rw [List.length_take]
    omega
  constructor
  · refine ⟨_, percolate_down_eq fuel index size _ hsz hidx (by omega) hfuel,
      sift_length _ _ _ _, sift_perm _ _ _ _ hsz,
      fun k hk => sift_frame fuel index size a hsz k hk, ?_⟩
    rw [percolate_down_eq fuel index size _ htl hidx (by omega) hfuel]
    simp only [sift_take]
  · refine ⟨_, _, percolate_down_result_eq fuel index size g a hsz hidx (by omega) hfuel,
      sift_length _ _ _ _, sift_perm _ _ _ _ hsz,
      fun k hk => sift_frame fuel index size a hsz k hk, ?_⟩
    rw [percolate_down_result_eq fuel index size g _ htl hidx (by omega) hfuel]
    simp only [sift_take]

/-- Instance at the vector `[1, 7, 3, 9, 8]` with index 0, boundary 4 and fuel 5. -/
theorem percolate_down_total_in_bounds_witness :
    4 ≤ [1, 7, 3, 9, 8].length ∧ [1, 7, 3, 9, 8].length < 2147483648 ∧
    0 < 2147483648 ∧ 4 - 0 < 5 ∧
    (∃ h', percolate_down 5 0 4
          { build_count := Heap.init.build_count, sort_count := Heap.init.sort_count,
            array := [1, 7, 3, 9, 8] } = .ok h' ∧
        h'.array.length = [1, 7, 3, 9, 8].length ∧ h'.array.Perm [1, 7, 3, 9, 8] ∧
        (∀ k, k < 0 ∨ 4 ≤ k → h'.array.getD k 0 = [1, 7, 3, 9, 8].getD k 0) ∧
        percolate_down 5 0 4
          { build_count := Heap.init.build_count, sort_count := Heap.init.sort_count,
            array := [1, 7, 3, 9, 8].take 4 } =
          .ok { build_count := h'.build_count, sort_count := h'.sort_count,
                array := h'.array.take 4 }) ∧
    (∃ h' r, percolate_down_result 5 0 4 Heap.init [1, 7, 3, 9, 8] = .ok (h', r) ∧
        r.length = [1, 7, 3, 9, 8].length ∧ r.Perm [1, 7, 3, 9, 8] ∧
        (∀ k, k < 0 ∨ 4 ≤ k → r.getD k 0 = [1, 7, 3, 9, 8].getD k 0) ∧
        percolate_down_result 5 0 4 Heap.init ([1, 7, 3, 9, 8].take 4) =
          .ok (h', r.take 4)) :=
  ⟨by decide, by decide, by decide, by decide,
    percolate_down_total_in_bounds 5 0 4 Heap.init [1, 7, 3, 9, 8]
      (by decide) (by decide) (by decide) (by decide)⟩

/-! ## The number of invocations made by `build_heap` -/

theorem sift_count_le_log (fuel index size : Nat) (a : List Nat) (hidx : index < size)
    (hfuel : size - index < fuel) :
    (sift fuel index size a).2 ≤ 1 + Nat.log 2 (size / (index + 1)) := by
  have h1 := sift_count_bound fuel index size a hidx hfuel
  have h2 : 2 ^ ((sift fuel index size a).2 - 1) ≤ size / (index + 1) := by
    rw [Nat.le_div_iff_mul_le (Nat.succ_pos index), Nat.mul_comm]
    exact h1
  have h3 := Nat.le_log_of_pow_le (by decide : 1 < 2) h2
  omega

theorem buildPure_count_le (pfuel size k : Nat) (a : List Nat) (hk : k ≤ size)
    (hfuel : size < pfuel) :
    (buildPure pfuel size k a).2 ≤
      ∑ i in Finset.range k, (1 + Nat.log 2 (size / (i + 1))) := by
  induction k generalizing a with
  | zero => simp [buildPure]
  | succ k ih =>
    unfold buildPure
    rw [Finset.sum_range_succ]
    have h1 := sift_count_le_log pfuel k size a (by omega) (by omega)
    have h2 := ih (sift pfuel k size a).1 (by omega)
    simp only []
    omega

theorem log_half_step (n i : Nat) :
    Nat.log 2 (n / (i + 1)) ≤ (if i < n / 2 then 1 else 0) + Nat.log 2 (n / 2 / (i + 1)) := by
  by_cases h : i < n / 2
  · have h2 : 2 ≤ n / (i + 1) := by
      rw [Nat.le_div_iff_mul_le (Nat.succ_pos i)]
      omega
    rw [if_pos h, Nat.log_of_one_lt_of_le (by decide : 1 < 2) h2, Nat.div_div_eq_div_mul,
      Nat.div_div_eq_div_mul, Nat.mul_comm (i + 1) 2]
    omega
  · have h2 : n / (i + 1) < 2 := by
      rw [Nat.div_lt_iff_lt_mul (Nat.succ_pos i)]
      omega
    rw [Nat.log_of_lt h2]
    omega

theorem sum_indicator_le (m c : Nat) :
    (∑ i in Finset.range m, (if i < c then 1 else 0)) ≤ min m c := by
  induction m with
  | zero => simp
  | succ m ih =>
    rw [Finset.sum_range_succ]
    by_cases h : m < c
    · rw [if_pos h]
      omega
    · rw [if_neg h]
      omega

theorem sum_log_le (n : Nat) :
    ∀ m, (∑ i in Finset.range m, Nat.log 2 (n / (i + 1))) ≤ n := by
  induction n using Nat.strong_induction_on with
  | _ n ih =>
    intro m
    by_cases h0 : n = 0
    · subst h0
      simp
    · have h1 : (∑ i in Finset.range m, Nat.log 2 (n / (i + 1))) ≤
          ∑ i in Finset.range m,
            ((if i < n / 2 then 1 else 0) + Nat.log 2 (n / 2 / (i + 1))) :=
        Finset.sum_le_sum (fun i _ => log_half_step n i)
      rw [Finset.sum_add_distrib] at h1
      have h2 := sum_indicator_le m (n / 2)
      have h3 := ih (n / 2) (by omega) m
      omega

theorem buildPure_count_le_two_mul (pfuel : Nat) (a : List Nat) (hfuel : a.length < pfuel) :
    (buildPure pfuel a.length (a.length / 2) a).2 ≤ 2 * a.length := by
  have h1 := buildPure_count_le pfuel a.length (a.length / 2) a (by omega) hfuel
  rw [Finset.sum_add_distrib, Finset.sum_const, Finset.card_range, smul_eq_mul,
    Nat.mul_one] at h1
  have h2 := sum_log_le a.length (a.length / 2)
  omega

/-- C18: for every input sequence shorter than `2^31` (and fuel above its
length), the constructor returns and `build_heap_count()` immediately
afterwards is at most twice the length of the input. -/
theorem build_heap_count_linear (fuel : Nat) (xs : List Nat)
    (hlen : xs.length < 2147483648) (hfuel : xs.length < fuel) :
    ∃ h, Heap.ofItems fuel xs = .ok h ∧ build_heap_count h ≤ 2 * xs.length := by
  refine ⟨_, build_heap_eq fuel { build_count := 0, sort_count := 0, array := xs } hlen hfuel,
    ?_⟩
  have h1 := buildPure_count_le_two_mul fuel xs hfuel
  unfold build_heap_count
  simp only []
  rw [uintInc_iterate_of_lt 0 _ (by omega)]
  omega

/-- Instance of the linear bound at `[3, 1, 6, 5, 2, 4]` with fuel 7. -/
theorem build_heap_count_linear_witness :
    [3, 1, 6, 5, 2, 4].length < 2147483648 ∧ [3, 1, 6, 5, 2, 4].length < 7 ∧
    ∃ h, Heap.ofItems 7 [3, 1, 6, 5, 2, 4] = .ok h ∧
      build_heap_count h ≤ 2 * [3, 1, 6, 5, 2, 4].length :=
  ⟨by decide, by decide,
    build_heap_count_linear 7 [3, 1, 6, 5, 2, 4] (by decide) (by decide)⟩

end MaxHeap
